import Mathlib

/-!
Verification of the diff-to-structure extraction and candidate-ranking
pipeline of the dataset-validation repository, against its
natural-language specification.  Python functions are shallowly embedded
as executable Lean definitions; external collaborators (the GitHub API
client and the language-model scorer) are abstracted as oracle
arguments, and the thread-pool fan-out is modelled by an explicit
completion order where the order matters.
-/

namespace DatasetValidation

/-! ## Character and string helpers shared by the embeddings -/

/-- Decimal value of a digit string, as Python `int` reads it
(leading zeros allowed). -/
def digitsVal (ds : List Char) : Nat :=
  ds.foldl (fun n c => 10 * n + (c.toNat - 48)) 0

/-- Whitespace as Python's `\s` / `str.strip` see it on diff text. -/
def isPySpace (c : Char) : Bool :=
  c = ' ' || c = '\t' || c = '\n' || c = '\r'

/-- Python `str.strip()`: remove whitespace from both ends. -/
def pyStrip (s : List Char) : List Char :=
  ((s.dropWhile isPySpace).reverse.dropWhile isPySpace).reverse

/-- Consume a literal pattern at the head of the subject, returning the
remainder on success (the building block for regex literals). -/
def dropPrefixChars : List Char → List Char → Option (List Char)
  | [], s => some s
  | _ :: _, [] => none
  | c :: p, x :: s => if x = c then dropPrefixChars p s else none

/-- Greedy `(\d+)`: the maximal leading digit run, which must be
nonempty, together with its decimal value and the remainder. -/
def parseNum (s : List Char) : Option (Nat × List Char) :=
  let d := s.takeWhile Char.isDigit
  if d.isEmpty then none else some (digitsVal d, s.dropWhile Char.isDigit)

/-- Python `str.split(sep)` for a single separator character; the
result is never empty. -/
def splitOnChar (sep : Char) : List Char → List (List Char)
  | [] => [[]]
  | c :: t =>
    match splitOnChar sep t with
    | [] => [[c]]
    | h :: hs => if c = sep then [] :: h :: hs else (c :: h) :: hs

/-- Python `str.startswith(pre)`. -/
def startsWithStr (l : List Char) (pre : String) : Bool :=
  pre.data.isPrefixOf l

/-- Python `str.splitlines()` on newline-separated text (the form diff
patches take): like split on the newline character, except that a
trailing newline does not produce a final empty line and the empty
string has no lines. -/
def pySplitlines (l : List Char) : List (List Char) :=
  if l.isEmpty then []
  else if l.getLast? = some '\n' then (splitOnChar '\n' l).dropLast
  else splitOnChar '\n' l

/-! ## HunkHeaderParser — `parse_hunk_header` in `add_detailed_file_info.py`

The source matches `re.search(r"@@ -(\d+)(?:,(\d+))? \+(\d+)(?:,(\d+))? @@(.*)$", header)`
and returns `{}` when there is no match; an omitted count group defaults
to 1 (`int(old_count) if old_count else 1`), and the trailing context is
stored stripped, and only when the raw capture is non-empty. -/

/-- The parsed hunk header record.  `none` models the `{}` (no-match)
return of the Python function; an absent `context` key is `none`. -/
structure HunkHeader where
  old_start : Nat
  old_count : Nat
  new_start : Nat
  new_count : Nat
  context : Option String
deriving Repr, DecidableEq

/-- The `(.*)$` tail of the pattern without `re.MULTILINE`: the capture
is the whole remainder when it holds no newline, or everything before a
single final newline; any interior newline makes this attempt fail. -/
def lineCapture (rest : List Char) : Option (List Char) :=
  if rest.contains '\n' then
    if rest.dropLast.contains '\n' then none
    else if rest.getLast? = some '\n' then some rest.dropLast else none
  else some rest

/-- Final step of one match attempt: consume the closing `" @@"`,
apply the `(.*)$` tail, and build the record; the context key is set
only when the raw capture is non-empty, and holds the stripped text. -/
def finishHeader (v1 v2 v3 v4 : Nat) (r : List Char) : Option HunkHeader :=
  match dropPrefixChars " @@".data r with
  | none => none
  | some rest =>
    match lineCapture rest with
    | none => none
    | some cap =>
      some ⟨v1, v2, v3, v4, if cap.isEmpty then none else some (String.mk (pyStrip cap))⟩

/-- The optional `(?:,(\d+))?` group: the greedy attempt takes the comma
and a nonempty digit run and then runs the continuation; the caller
falls back to the group matching nothing when this returns `none`,
mirroring regex backtracking. -/
def tryComma (r : List Char) (cont : Nat → List Char → Option HunkHeader) : Option HunkHeader :=
  match r with
  | ',' :: r2 =>
    match parseNum r2 with
    | none => none
    | some (v, r3) => cont v r3
  | _ => none

/-- The part of the pattern from `" \+"` onward, given the old-side
numbers already read. -/
def afterOld (v1 v2 : Nat) (r : List Char) : Option HunkHeader :=
  match dropPrefixChars " +".data r with
  | none => none
  | some r4 =>
    match parseNum r4 with
    | none => none
    | some (v3, r5) =>
      match tryComma r5 (fun v4 r6 => finishHeader v1 v2 v3 v4 r6) with
      | some h => some h
      | none => finishHeader v1 v2 v3 1 r5

/-- One attempt of the full pattern anchored at the head of `s`. -/
def matchHunkHeaderAt (s : List Char) : Option HunkHeader :=
  match dropPrefixChars "@@ -".data s with
  | none => none
  | some r0 =>
    match parseNum r0 with
    | none => none
    | some (v1, r1) =>
      match tryComma r1 (fun v2 r => afterOld v1 v2 r) with
      | some h => some h
      | none => afterOld v1 1 r1

/-- `re.search`: try the pattern at every start position, leftmost
match wins. -/
def searchHunkHeader : List Char → Option HunkHeader
  | [] => matchHunkHeaderAt []
  | c :: t =>
    match matchHunkHeaderAt (c :: t) with
    | some h => some h
    | none => searchHunkHeader t

/-- `parse_hunk_header` of `add_detailed_file_info.py`. -/
def parse_hunk_header (header : String) : Option HunkHeader :=
  searchHunkHeader header.data

/-- A nonempty all-digit block, as captured by a `(\d+)` group. -/
def DigitSeg (ds : List Char) : Prop :=
  ds ≠ [] ∧ ∀ c ∈ ds, c.isDigit = true

/-- Text of an optional `,count` group. -/
def optCountText : Option (List Char) → List Char
  | none => []
  | some ds => ',' :: ds

/-- Tails acceptable to the `(.*)$` end of the pattern without
`re.MULTILINE`: no newline at all, or a single newline in final
position. -/
def TailOk (rest : List Char) : Prop :=
  rest.contains '\n' = false ∨
    (rest.dropLast.contains '\n' = false ∧ rest.getLast? = some '\n')

/-- A hunk-header match of the search pattern starting exactly at the
head of `l`. -/
def HeaderShapeAt (l : List Char) : Prop :=
  ∃ ds1 ds3 : List Char, ∃ oc nc : Option (List Char), ∃ rest : List Char,
    DigitSeg ds1 ∧ DigitSeg ds3 ∧
    (∀ ds, oc = some ds → DigitSeg ds) ∧ (∀ ds, nc = some ds → DigitSeg ds) ∧
    TailOk rest ∧
    l = "@@ -".data ++ (ds1 ++ (optCountText oc ++ (" +".data ++
        (ds3 ++ (optCountText nc ++ (" @@".data ++ rest))))))

/-- Conformance of a line to the hunk-header grammar at some position,
the language of the searched pattern. -/
def ConformsHunkHeader (s : String) : Prop :=
  ∃ pre l, s.data = pre ++ l ∧ HeaderShapeAt l

/-! ## The second header parser — `parse_hunk_header` in `core/commit_operations.py`

The source matches `re.match(r"@@ -(\d+),?(\d*) \+(\d+),?(\d*) @@", header)`
(anchored at the start, arbitrary trailing text) and returns a record of
four `None`s when there is no match, modelled here as `none`; an empty
length capture defaults to 1. -/

/-- Result record of the commit-operations header parser. -/
structure HunkMeta where
  from_line : Nat
  from_len : Nat
  to_line : Nat
  to_len : Nat
deriving Repr, DecidableEq

/-- The `(\d+),?(\d*)` pair of the anchored pattern: a nonempty digit
run, an optional comma, then a possibly empty digit run whose empty
capture defaults to 1.  When the comma is taken but the rest of the
pattern fails afterwards, the regex fallback of leaving `,?` unmatched
also fails (the comma cannot match the following literal space), so
committing to the comma here is faithful. -/
def parseNumPairOps (s : List Char) : Option (Nat × Nat × List Char) :=
  match parseNum s with
  | none => none
  | some (v1, r1) =>
    match r1 with
    | ',' :: r2 =>
      let d2 := r2.takeWhile Char.isDigit
      some (v1, if d2.isEmpty then 1 else digitsVal d2, r2.dropWhile Char.isDigit)
    | _ => some (v1, 1, r1)

/-- `parse_hunk_header` of `core/commit_operations.py`. -/
def parse_hunk_header_ops (header : String) : Option HunkMeta :=
  match dropPrefixChars "@@ -".data header.data with
  | none => none
  | some r0 =>
    match parseNumPairOps r0 with
    | none => none
    | some (fl, flen, r1) =>
      match dropPrefixChars " +".data r1 with
      | none => none
      | some r2 =>
        match parseNumPairOps r2 with
        | none => none
        | some (tl, tlen, r3) =>
          match dropPrefixChars " @@".data r3 with
          | none => none
          | some _ => some ⟨fl, flen, tl, tlen⟩

/-! ## ChangedLineMapper — `_parse_changed_lines_from_patch` in `get_commit_file_changes.py`

The source walks `patch.splitlines()` keeping a running new-file line
counter, initialised to 0: an `@@` line matching
`re.match(r"@@ -\d+(?:,\d+)? \+(\d+)(?:,(\d+))? @@", line)` resets the
counter to the captured new start; a `+` line (not `+++`) adds the
counter to the set and increments it; a `-` line (not `---`) leaves the
counter alone; any other line increments it.  The counter is modelled
as an integer so that the sign properties of the result are theorems
rather than typing artifacts. -/

/-- The anchored header pattern of the line mapper; only the captured
new-start is used by the caller.  The optional count groups backtrack
exactly as in `matchHunkHeaderAt`. -/
def matchMapperHeader (s : List Char) : Option Nat :=
  match dropPrefixChars "@@ -".data s with
  | none => none
  | some r0 =>
    match parseNum r0 with
    | none => none
    | some (_, r1) =>
      let afterOldNums : List Char → Option Nat := fun r =>
        match dropPrefixChars " +".data r with
        | none => none
        | some r4 =>
          match parseNum r4 with
          | none => none
          | some (v3, r5) =>
            let finish : List Char → Option Nat := fun r6 =>
              match dropPrefixChars " @@".data r6 with
              | none => none
              | some _ => some v3
            match r5 with
            | ',' :: r6 =>
              match parseNum r6 with
              | none => finish r5
              | some (_, r7) =>
                match finish r7 with
                | some v => some v
                | none => finish r5
            | _ => finish r5
      match r1 with
      | ',' :: r2 =>
        match parseNum r2 with
        | none => afterOldNums r1
        | some (_, r3) =>
          match afterOldNums r3 with
          | some v => some v
          | none => afterOldNums r1
      | _ => afterOldNums r1

/-- A Python `set` observed through membership and size only, modelled
as a duplicate-free list in insertion order: `set.add` inserts the
element only when it is absent. -/
def setAdd (x : ℤ) (s : List ℤ) : List ℤ :=
  if x ∈ s then s else s ++ [x]

/-- One step of the line mapper: state is the set built so far and the
running new-file line counter. -/
def mapperStep (st : List ℤ × ℤ) (line : List Char) : List ℤ × ℤ :=
  if startsWithStr line "@@" then
    match matchMapperHeader line with
    | some ns => (st.1, (ns : ℤ))
    | none => st
  else if startsWithStr line "+" && !startsWithStr line "+++" then
    (setAdd st.2 st.1, st.2 + 1)
  else if startsWithStr line "-" && !startsWithStr line "---" then
    st
  else
    (st.1, st.2 + 1)

/-- `_parse_changed_lines_from_patch` of `get_commit_file_changes.py`. -/
def parse_changed_lines_from_patch (patch : String) : List ℤ :=
  ((pySplitlines patch.data).foldl mapperStep ([], 0)).1

/-- Number of lines of the patch beginning with `+` but not `+++`. -/
def plusLineCount (patch : String) : Nat :=
  ((pySplitlines patch.data).filter
    (fun l => startsWithStr l "+" && !startsWithStr l "+++")).length

/-! ## CodeUnitExtractor — `_get_changed_functions` in `get_commit_file_changes.py`

A single top-to-bottom scan of `source.split("\n")` (1-based line
numbers) keeping the current enclosing contract name and a stack of
in-progress units, each with a brace-depth counter and a started flag;
a unit whose depth returns to zero after starting is complete and is
emitted when its line range meets the changed-line set of the patch. -/

/-- A name character, `[a-zA-Z0-9_]`. -/
def isNameChar (c : Char) : Bool :=
  ('a' ≤ c && c ≤ 'z') || ('A' ≤ c && c ≤ 'Z') || ('0' ≤ c && c ≤ '9') || c = '_'

/-- Match `re.match(r"^\s*KW\s+([a-zA-Z0-9_]+)", line)` for a literal
keyword, returning the captured name and the remainder of the line. -/
def matchKwThenName (kw : String) (l : List Char) : Option (List Char × List Char) :=
  match dropPrefixChars kw.data (l.dropWhile isPySpace) with
  | none => none
  | some r1 =>
    let ws := r1.takeWhile isPySpace
    if ws.isEmpty then none
    else
      let r2 := r1.dropWhile isPySpace
      let nm := r2.takeWhile isNameChar
      if nm.isEmpty then none else some (nm, r2.dropWhile isNameChar)

/-- Match the contract declaration pattern
`r"^\s*(contract|interface|library)\s+([a-zA-Z0-9_]+)\s*(.*)\{?"`,
returning the name and the rest-of-signature capture (which starts at
the first non-whitespace character after the name, since `\s*` is
greedy and `(.*)\{?` can always complete from there). -/
def matchContractDecl (l : List Char) : Option (List Char × List Char) :=
  match matchKwThenName "contract" l <|> matchKwThenName "interface" l <|>
      matchKwThenName "library" l with
  | none => none
  | some (nm, r3) => some (nm, r3.dropWhile isPySpace)

/-- Match `r"^\s*KW\s+([a-zA-Z0-9_]+)\s*\("` (the `function` and
`modifier` declaration patterns). -/
def matchKwNameParen (kw : String) (l : List Char) : Option (List Char) :=
  match matchKwThenName kw l with
  | none => none
  | some (nm, r3) =>
    match r3.dropWhile isPySpace with
    | '(' :: _ => some nm
    | _ => none

/-- Match `r"^\s*(constructor|receive|fallback)\s*\("`; the capture is
the keyword itself. -/
def matchSpecialDecl (l : List Char) : Option (List Char) :=
  let tryKw : String → Option (List Char) := fun kw =>
    match dropPrefixChars kw.data (l.dropWhile isPySpace) with
    | none => none
    | some r1 =>
      match r1.dropWhile isPySpace with
      | '(' :: _ => some kw.data
      | _ => none
  tryKw "constructor" <|> tryKw "receive" <|> tryKw "fallback"

/-- The function/modifier declaration test of the scanner:
`fm or sm or mm` in the source, in that order. -/
def matchFnDecl (l : List Char) : Option (List Char) :=
  matchKwNameParen "function" l <|> matchSpecialDecl l <|> matchKwNameParen "modifier" l

/-- One in-progress unit of the scanner stack. -/
structure StackEntry where
  name : String
  contract : Option String
  start : Nat
  depth : ℤ
  started : Bool
  is_contract : Bool
deriving Repr, DecidableEq

/-- State of the scanner: current enclosing contract (never cleared),
the stack of open units, and the emitted entries. -/
structure ScanState where
  current_contract : Option String
  stack : List StackEntry
  entries : List String
deriving Repr, DecidableEq

/-- Qualified name composition at emission time: contracts under their
own (signature) name, other units prefixed by the enclosing contract
when one was open at their declaration. -/
def emitName (f : StackEntry) : String :=
  if f.is_contract then f.name
  else
    match f.contract with
    | some c => c ++ "::" ++ f.name
    | none => f.name

/-- Processing of one source line (1-based index `i`). -/
def scanLine (changed : List ℤ) (st : ScanState) (i : Nat) (line : List Char) : ScanState :=
  let (cc, stack1) : Option String × List StackEntry :=
    match matchContractDecl line with
    | some (nm, crest) =>
      let cname := String.mk nm
      let signature :=
        if crest.isEmpty then cname else cname ++ " " ++ String.mk (pyStrip crest)
      (some cname, st.stack ++ [⟨signature, none, i, 0, true, true⟩])
    | none => (st.current_contract, st.stack)
  let stack2 : List StackEntry :=
    match matchFnDecl line with
    | some nm => stack1 ++ [⟨String.mk nm, cc, i, 0, false, false⟩]
    | none => stack1
  let hasOpen := line.contains '{'
  let delta : ℤ := (line.count '{' : ℤ) - (line.count '}' : ℤ)
  let stack3 := stack2.map (fun f =>
    let f1 := if hasOpen then { f with started := true } else f
    if f1.started then { f1 with depth := f1.depth + delta } else f1)
  let isComplete : StackEntry → Bool := fun f => f.started && f.depth == 0
  let completed := stack3.filter isComplete
  let newEntries := (completed.filter (fun f =>
      (List.range' f.start (i + 1 - f.start)).any (fun ln => (ln : ℤ) ∈ changed))).map emitName
  ⟨cc, stack3.filter (fun f => !isComplete f), st.entries ++ newEntries⟩

/-- Fold of the scanner over the numbered source lines. -/
def scanLines (changed : List ℤ) : ScanState → Nat → List (List Char) → ScanState
  | st, _, [] => st
  | st, i, l :: ls => scanLines changed (scanLine changed st i l) (i + 1) ls

/-- `_get_changed_functions` of `get_commit_file_changes.py`: empty
source or patch short-circuits to `[]`; otherwise the scanner runs over
`source.split("\n")` with the changed-line set of the patch. -/
def get_changed_functions (source patch : String) : List String :=
  if source.data.isEmpty || patch.data.isEmpty then []
  else
    (scanLines (parse_changed_lines_from_patch patch) ⟨none, [], []⟩ 1
      (splitOnChar '\n' source.data)).entries

/-! ## Language-model scoring — `rank_single_commit` / `rank_with_gpt`
in `compute_relevance_gpt.py`

The external API call and JSON decoding are abstracted into a
`GptResponse` oracle value per commit: an exception raised inside the
`try` block, a `json.JSONDecodeError`, or a decoded object whose
`url` / `score` / `bug_related_files` keys may each be absent.  The
response handling after that point is embedded verbatim: a successful
parse with both keys and a positive score returns the parsed url and
the raw (unnormalised) score; every other outcome returns a record with
score 0 and a reasoning string.  `rank_with_gpt` submits one task per
commit to a thread pool and appends exactly one result per completed
future; it applies no sorting, so under the submission-order completion
schedule modelled here the output order is the input order. -/

/-- Commit fields consumed by the scoring pass (the remaining fields
only feed the prompt text handed to the external model, which the
response oracle absorbs). -/
structure CommitInput where
  commit_url : String
  message : String
deriving Repr, DecidableEq

/-- A JSON value that is either a bare string or a list of strings, as
`bug_related_files` may be. -/
inductive StrOrList where
  | str (s : String)
  | strs (l : List String)
deriving Repr, DecidableEq

/-- The decoded JSON object of a scoring response, with each expected
key optional. -/
structure GptJson where
  url : Option String
  score : Option ℚ
  bug_related_files : Option (List String)
deriving Repr, DecidableEq

/-- Outcome of one scoring API call. -/
inductive GptResponse where
  | apiError (msg : String)
  | badJson
  | parsed (obj : GptJson)
deriving Repr, DecidableEq

/-- One ranking result dictionary; keys absent in the Python dict are
`none`. -/
structure RankResult where
  url : String
  score : ℚ
  reasoning : Option String
  relevant_files : Option StrOrList
deriving Repr, DecidableEq

/-- The fallback record for a response with missing keys (also reached
when the score is present but not positive). -/
def missingKeysResult (commit : CommitInput) : RankResult :=
  ⟨commit.commit_url, 0, some "Failed to parse GPT response: Missing keys.", none⟩

/-- `rank_single_commit` of `compute_relevance_gpt.py`, given the
response of the external scorer. -/
def rank_single_commit (commit : CommitInput) (resp : GptResponse) : RankResult :=
  match resp with
  | .parsed obj =>
    match obj.url, obj.score with
    | some u, some s =>
      if s > 0 then
        ⟨u, s, none,
          some (match obj.bug_related_files with
                | some fs => .strs fs
                | none => .str "No related files provided")⟩
      else missingKeysResult commit
    | some _, none => missingKeysResult commit
    | none, _ => missingKeysResult commit
  | .badJson => ⟨commit.commit_url, 0, some "JSON decode error from API response.", none⟩
  | .apiError msg =>
    ⟨commit.commit_url, 0, some ("Unexpected API error: " ++ String.mk (msg.data.take 50)), none⟩

/-- `rank_with_gpt` of `compute_relevance_gpt.py` under the
submission-order completion schedule: one result per submitted commit,
in completion order, with no sorting applied (the `worker` of
`run_get_commit_data` in `core/commit_operations.py` also applies none:
its `Sort by score descending` comment has no code under it). -/
def rank_with_gpt (responses : CommitInput → GptResponse)
    (commit_data_list : List CommitInput) : List RankResult :=
  commit_data_list.map (fun c => rank_single_commit c (responses c))

/-- Whether a list of results is sorted by score descending. -/
def sortedByScoreDesc (l : List RankResult) : Prop :=
  l.Chain' (fun a b => b.score ≤ a.score)

/-! ## CandidateAggregator — the dedup/merge loop of
`search_pr_commits_parallel` (and identically `search_github_commits_parallel`)
in `parse_all_commits.py`

Matches arriving from the per-commit, per-query search futures are
folded into a result list guarded by a `seen` set of commit URLs: a
match whose commit URL was already seen is skipped entirely, otherwise
its fields are appended as a new result.  The hunk payload attached to
each appended result is a parameter (in the source it is
`extract_commit_hunks(commit)` evaluated on the leftover loop variable,
the same commit for every result).  The `seen` set is modelled as a
duplicate-free list, observed through membership only. -/

/-- One match record returned by `search_commit_for_query`. -/
structure MatchRec where
  commit_url : String
  commit_message : String
  query_match : String
deriving Repr, DecidableEq

/-- One aggregated result, with the attached hunk payload. -/
structure PrCommitResult (α : Type) where
  commit_url : String
  message : String
  query_match : String
  files_changed : α
deriving Repr, DecidableEq

/-- Folding one match into the `(seen, results)` state. -/
def aggStep {α : Type} (hunk_data : α) (st : List String × List (PrCommitResult α))
    (m : MatchRec) : List String × List (PrCommitResult α) :=
  if m.commit_url ∈ st.1 then st
  else (st.1 ++ [m.commit_url],
        st.2 ++ [⟨m.commit_url, m.commit_message, m.query_match, hunk_data⟩])

/-- The aggregation loop of `search_pr_commits_parallel` over the match
lists of the completed futures, in completion order. -/
def search_pr_commits_aggregate {α : Type} (hunk_data : α)
    (matchLists : List (List MatchRec)) : List (PrCommitResult α) :=
  (matchLists.foldl (fun st ms => ms.foldl (aggStep hunk_data) st) ([], [])).2

/-! ## BlobReferenceResolver — `get_blob_url_by_function` in `utils/url_helpers.py` -/

/-- Python `needle in hay` for strings: contiguous substring test. -/
def strContainsSub : List Char → List Char → Bool
  | hay, needle =>
    needle.isPrefixOf hay ||
      match hay with
      | [] => false
      | _ :: t => strContainsSub t needle

/-- Python `str.lower()` on ASCII text. -/
def lowerChar (c : Char) : Char :=
  if 'A' ≤ c && c ≤ 'Z' then Char.ofNat (c.toNat + 32) else c

/-- Lowercasing of a character list. -/
def lowerStr (l : List Char) : List Char :=
  l.map lowerChar

/-- Python `str.replace(".sol", "")`: remove every occurrence of the
substring, scanning left to right. -/
def removeSolExt : List Char → List Char
  | '.' :: 's' :: 'o' :: 'l' :: t => removeSolExt t
  | c :: t => c :: removeSolExt t
  | [] => []

/-- The text before the first occurrence of the separator —
Python `s.split(sep)[0]`. -/
def upToSub (sep : List Char) : List Char → List Char
  | [] => []
  | c :: t => if sep.isPrefixOf (c :: t) then [] else c :: upToSub sep t

/-- The contract-name part extracted from the unit name:
text before `::`, else before ` is `, else the whole name. -/
def extractPfx (function_name : List Char) : List Char :=
  if strContainsSub function_name "::".data then upToSub "::".data function_name
  else if strContainsSub function_name " is ".data then upToSub " is ".data function_name
  else function_name

/-- The per-file match test of the loop body: case-insensitive equality
of the extracted name with the base name or the full file name, or a
case-insensitive substring containment in either direction. -/
def blobMatchTest (pfx file : List Char) : Bool :=
  let file_base := removeSolExt file
  lowerStr pfx == lowerStr file_base ||
  lowerStr pfx == lowerStr file ||
  strContainsSub (lowerStr pfx) (lowerStr file_base) ||
  strContainsSub (lowerStr file_base) (lowerStr pfx)

/-- The `for i, file in enumerate(files_list)` loop: on a match the
blob at the same index is returned when one exists; a matching file
with no blob at its index falls through and the scan continues. -/
def blobLoop (blob_list : List String) (pfx : List Char) :
    Nat → List String → Option String
  | _, [] => none
  | i, file :: rest =>
    if blobMatchTest pfx file.data then
      match blob_list.get? i with
      | some b => some b
      | none => blobLoop blob_list pfx (i + 1) rest
    else blobLoop blob_list pfx (i + 1) rest

/-- `get_blob_url_by_function` of `utils/url_helpers.py`; after the
loop, a singleton blob list is returned as a last resort. -/
def get_blob_url_by_function (blob_list : List String) (function_name : String)
    (files_list : List String) : Option String :=
  match blobLoop blob_list (extractPfx function_name.data) 0 files_list with
  | some b => some b
  | none => if blob_list.length == 1 then blob_list.head? else none

/-! ## Parallel detailed-info extraction — `extract_detailed_commit_info`
and `process_commit_list` in `add_detailed_file_info.py`

The body of `extract_detailed_commit_info` is GitHub API access and
per-file processing wrapped in a `try` block, abstracted as a fallible
`fetch` oracle; its `except` branch returns an error dictionary that
carries the original commit object (`original_data`) instead of
raising.  `process_commit_list` pre-allocates a slot per input commit,
submits one future per index, and as futures complete (in an arbitrary
order, modelled as an explicit list of indices) writes each result into
the slot of its own index. -/

/-- Result of `extract_detailed_commit_info`: the detailed record, or
the error record carrying the original input. -/
inductive ExtractOutcome (κ δ : Type) where
  | ok (info : δ)
  | err (message : String) (original : κ)
deriving Repr, DecidableEq

/-- `extract_detailed_commit_info` of `add_detailed_file_info.py`,
with its fallible body abstracted as `fetch`. -/
def extract_detailed_commit_info {κ δ : Type} (fetch : κ → Except String δ)
    (commit_obj : κ) : ExtractOutcome κ δ :=
  match fetch commit_obj with
  | .ok d => .ok d
  | .error e => .err e commit_obj

/-- Completion of the future of index `i`: its result is written into
slot `i` of the pre-allocated list (futures exist only for the valid
indices). -/
def pclStep {κ δ : Type} (fetch : κ → Except String δ) (commit_objects : List κ)
    (acc : List (Option (ExtractOutcome κ δ))) (i : ℕ) :
    List (Option (ExtractOutcome κ δ)) :=
  match commit_objects.get? i with
  | some c => acc.set i (some (extract_detailed_commit_info fetch c))
  | none => acc

/-- `process_commit_list` of `add_detailed_file_info.py`: slots are
pre-allocated to maintain order, and `completion` is the order in which
the per-index futures complete. -/
def process_commit_list {κ δ : Type} (fetch : κ → Except String δ)
    (commit_objects : List κ) (completion : List ℕ) :
    List (Option (ExtractOutcome κ δ)) :=
  completion.foldl (pclStep fetch commit_objects)
    (List.replicate commit_objects.length none)

/-! ## Theorems -/

/-- Claim C1: the claim says the final candidate list is sorted by
final score descending with ties broken by earliest-seen commit id.
The code never sorts: `rank_with_gpt` appends results in completion
order, and the `worker` of `run_get_commit_data` has only a comment
where the sort should be.  Under the submission-order completion
schedule, two commits scored 10 and then 90 come back in that order,
which is not descending. -/
theorem rank_with_gpt_returns_completion_order :
    (rank_with_gpt
        (fun c => if c.commit_url = "u1" then .parsed ⟨some "u1", some 10, none⟩
                  else .parsed ⟨some "u2", some 90, none⟩)
        [⟨"u1", "m1"⟩, ⟨"u2", "m2"⟩]).map RankResult.score = [10, 90] ∧
    ¬ sortedByScoreDesc
        (rank_with_gpt
          (fun c => if c.commit_url = "u1" then .parsed ⟨some "u1", some 10, none⟩
                    else .parsed ⟨some "u2", some 90, none⟩)
          [⟨"u1", "m1"⟩, ⟨"u2", "m2"⟩]) := by
  have hres : rank_with_gpt
      (fun c => if c.commit_url = "u1" then .parsed ⟨some "u1", some 10, none⟩
                else .parsed ⟨some "u2", some 90, none⟩)
      [⟨"u1", "m1"⟩, ⟨"u2", "m2"⟩] =
      [⟨"u1", 10, none, some (.str "No related files provided")⟩,
       ⟨"u2", 90, none, some (.str "No related files provided")⟩] := by decide
  refine ⟨by decide, ?_⟩
  intro h
  rw [hres] at h
  simp [sortedByScoreDesc, List.chain'_cons, List.chain'_singleton] at h
  norm_num at h

/-- Claim C2: the claim says scores arriving on the 0-100 scale are
divided by 100.  The code returns the parsed score unchanged (despite
its `Normalize score and return result` comment): a response scored 95
yields a candidate scored 95, not 0.95, while a 0-1 score like 0.40
passes through only because nothing is done to any score. -/
theorem gpt_score_returned_unnormalized :
    (rank_single_commit ⟨"cu", "m"⟩ (.parsed ⟨some "u", some 95, none⟩)).score = 95 ∧
    (rank_single_commit ⟨"cu", "m"⟩ (.parsed ⟨some "u", some (2 / 5), none⟩)).score = 2 / 5 ∧
    (95 : ℚ) ≠ 95 / 100 := by
  refine ⟨by decide, ?_, by norm_num⟩
  simp only [rank_single_commit]
  rw [if_pos (by norm_num : (2 : ℚ) / 5 > 0)]

/-- Claim C3 (counterexample): the header `@@ -10,0 +10,3 @@` carries an
explicit old count of 0, and the parser returns exactly that 0 — the
`int(old_count) if old_count else 1` default applies only to an omitted
count group, not to the digit string `"0"`, which is truthy in Python —
so the record claimed (`old_count = 1`) is not what is returned. -/
theorem parse_hunk_header_explicit_zero_count :
    parse_hunk_header "@@ -10,0 +10,3 @@" = some ⟨10, 0, 10, 3, none⟩ ∧
    ((⟨10, 0, 10, 3, none⟩ : HunkHeader) ≠ ⟨10, 1, 10, 3, none⟩) := by decide

/-- Claim C4 (counterexample): on the one-contract-one-function source
of the claim with changed line 3, the extractor does not yield only the
function unit: the enclosing contract also overlaps line 3 and is
emitted when it completes. -/
theorem code_unit_extractor_also_emits_contract :
    get_changed_functions "contract C \x7b\n function f() \x7b\n x = 1;\n \x7d\n\x7d"
      "@@ -3,1 +3,1 @@\n+ x = 1;" ≠ ["C::f"] := by decide

/-- Claim C4 (amended): the extractor yields the function unit first
(its brace closes first), qualified by the enclosing contract, and then
the contract unit under its captured signature text — which here is
`C` followed by the opening brace, because the declaration regex's
`(.*)` group captures the rest of the line including the brace. -/
theorem code_unit_extractor_scenario :
    get_changed_functions "contract C \x7b\n function f() \x7b\n x = 1;\n \x7d\n\x7d"
      "@@ -3,1 +3,1 @@\n+ x = 1;" = ["C::f", "C \x7b"] := by decide

/-- Claim C5 (counterexample): the running counter starts at 0, so a
`+` line arriving before any parsed hunk header is recorded as line 0,
refuting the claim that the result never contains zero. -/
theorem changed_lines_zero_line_number :
    (0 : ℤ) ∈ parse_changed_lines_from_patch "+x" := by decide

/-- Claim C6 (counterexample): two passes report the same commit with
different matched queries; the aggregation keeps only the first
arrival's query and skips the second entirely, so the per-commit
evidence is not the union over all results carrying that commit id. -/
theorem aggregate_drops_later_evidence :
    (search_pr_commits_aggregate () [[⟨"u", "m", "q1"⟩], [⟨"u", "m", "q2"⟩]]).map
        PrCommitResult.query_match = ["q1"] ∧
    ∀ r ∈ search_pr_commits_aggregate () [[⟨"u", "m", "q1"⟩], [⟨"u", "m", "q2"⟩]],
      r.query_match ≠ "q2" := by decide

/-- Claim C8 (counterexample): with files `TokenVault.sol` then
`Vault.sol` and unit `Vault::withdraw`, the name `Vault` matches the
base name `Vault` of the second file exactly, yet the resolver returns
the first file's reference, because its single left-to-right scan
accepts the substring match `vault ⊆ tokenvault` before ever reaching
the exact match — exact matching has no priority over substring
matching across the list. -/
theorem blob_resolver_substring_beats_exact :
    get_blob_url_by_function ["b0", "b1"] "Vault::withdraw"
        ["TokenVault.sol", "Vault.sol"] = some "b0" ∧
    lowerStr (extractPfx "Vault::withdraw".data) =
        lowerStr (removeSolExt "Vault.sol".data) ∧
    "b0" ≠ "b1" := by decide

/-- Claim C7: any failing scoring pass — an exception from the API
call, a JSON decode failure, or a decoded object missing the `url` or
`score` key — produces a candidate record with score exactly 0 and a
nonempty reasoning string (the embedding is total, so no failure
escapes as an exception), and the batch step produces exactly one
result per attempted commit. -/
theorem failed_pass_scored_zero_with_reason :
    (∀ (commit : CommitInput) (resp : GptResponse),
        ((∃ m, resp = .apiError m) ∨ resp = .badJson ∨
          (∃ obj, resp = .parsed obj ∧ (obj.url = none ∨ obj.score = none))) →
        (rank_single_commit commit resp).score = 0 ∧
        ∃ r, (rank_single_commit commit resp).reasoning = some r ∧ r ≠ "") ∧
    (∀ (responses : CommitInput → GptResponse) (l : List CommitInput),
        (rank_with_gpt responses l).length = l.length) := by
  constructor
  · rintro commit resp (⟨m, rfl⟩ | rfl | ⟨obj, rfl, hk⟩)
    · refine ⟨rfl, "Unexpected API error: " ++ String.mk (m.data.take 50), rfl, fun hc => ?_⟩
      have hlen := congrArg String.length hc
      rw [String.length_append] at hlen
      have h1 : "Unexpected API error: ".length = 22 := rfl
      have h2 : "".length = 0 := rfl
      omega
    · exact ⟨rfl, "JSON decode error from API response.", rfl, by decide⟩
    · have hmk : rank_single_commit commit (.parsed obj) = missingKeysResult commit := by
        rcases hk with hk | hk
        · simp [rank_single_commit, hk]
        · rcases hu : obj.url with _ | u
          · simp [rank_single_commit, hu]
          · simp [rank_single_commit, hu, hk]
      rw [hmk]
      exact ⟨rfl, "Failed to parse GPT response: Missing keys.", rfl, by decide⟩
  · intro responses l
    simp [rank_with_gpt]

/-- Witness for claim C7 at a JSON decode failure on a single commit. -/
theorem failed_pass_scored_zero_with_reason_witness :
    (rank_single_commit ⟨"u", "m"⟩ .badJson).score = 0 ∧
    (∃ r, (rank_single_commit ⟨"u", "m"⟩ .badJson).reasoning = some r ∧ r ≠ "") ∧
    (rank_with_gpt (fun _ => .badJson) [⟨"u", "m"⟩]).length = 1 :=
  ⟨(failed_pass_scored_zero_with_reason.1 ⟨"u", "m"⟩ .badJson (Or.inr (Or.inl rfl))).1,
   (failed_pass_scored_zero_with_reason.1 ⟨"u", "m"⟩ .badJson (Or.inr (Or.inl rfl))).2,
   failed_pass_scored_zero_with_reason.2 (fun _ => .badJson) [⟨"u", "m"⟩]⟩

/-- One mapper step keeps the set members and the counter nonnegative. -/
theorem mapperStep_nonneg (st : List ℤ × ℤ) (l : List Char)
    (h1 : ∀ x ∈ st.1, 0 ≤ x) (h2 : 0 ≤ st.2) :
    (∀ x ∈ (mapperStep st l).1, 0 ≤ x) ∧ 0 ≤ (mapperStep st l).2 := by
  unfold mapperStep
  split
  · split
    · exact ⟨h1, Int.natCast_nonneg _⟩
    · exact ⟨h1, h2⟩
  · split
    · refine ⟨?_, by omega⟩
      intro x hx
      unfold setAdd at hx
      split at hx
      · exact h1 x hx
      · rcases List.mem_append.mp hx with hx | hx
        · exact h1 x hx
        · rw [List.mem_singleton.mp hx]; exact h2
    · split
      · exact ⟨h1, h2⟩
      · exact ⟨h1, by omega⟩

/-- Folding the mapper preserves nonnegativity of members and counter. -/
theorem mapper_fold_nonneg (ls : List (List Char)) :
    ∀ st : List ℤ × ℤ, (∀ x ∈ st.1, 0 ≤ x) → 0 ≤ st.2 →
      (∀ x ∈ (ls.foldl mapperStep st).1, 0 ≤ x) ∧ 0 ≤ (ls.foldl mapperStep st).2 := by
  induction ls with
  | nil => exact fun st h1 h2 => ⟨h1, h2⟩
  | cons l ls ih =>
    intro st h1 h2
    have := mapperStep_nonneg st l h1 h2
    exact ih (mapperStep st l) this.1 this.2

/-- One mapper step grows the set by at most one, and only on a `+`
line that is not a `+++` line. -/
theorem mapperStep_len (st : List ℤ × ℤ) (l : List Char) :
    (mapperStep st l).1.length ≤
      st.1.length + (if startsWithStr l "+" && !startsWithStr l "+++" then 1 else 0) := by
  unfold mapperStep
  split
  · split <;> exact Nat.le_add_right _ _
  · split
    · unfold setAdd
      split
      · exact Nat.le_add_right _ 1
      · simp
    · split <;> exact Nat.le_add_right _ _

/-- Folding the mapper grows the set by at most the number of `+`
lines processed. -/
theorem mapper_fold_len (ls : List (List Char)) :
    ∀ st : List ℤ × ℤ, (ls.foldl mapperStep st).1.length ≤
      st.1.length +
        (ls.filter (fun l => startsWithStr l "+" && !startsWithStr l "+++")).length := by
  induction ls with
  | nil => intro st; simp
  | cons l ls ih =>
    intro st
    have hstep := mapperStep_len st l
    have hrest := ih (mapperStep st l)
    rw [List.foldl_cons, List.filter_cons]
    cases hp : (startsWithStr l "+" && !startsWithStr l "+++")
    · rw [hp] at hstep
      simp only [Bool.false_eq_true, if_neg, ite_false] at hstep ⊢
      omega
    · rw [hp] at hstep
      simp only [if_pos, ite_true, List.length_cons] at hstep ⊢
      omega

/-- Claim C5 (amended): the changed-line set contains no negative line
number — though zero can occur, for instance for a `+` line arriving
before any parsed hunk header, or under a parsed header whose new
start is 0 — and its size never exceeds the number of `+` lines of the
patch that are not `+++` lines. -/
theorem changed_lines_bounds (patch : String) :
    (∀ x ∈ parse_changed_lines_from_patch patch, 0 ≤ x) ∧
    (parse_changed_lines_from_patch patch).length ≤ plusLineCount patch := by
  constructor
  · exact (mapper_fold_nonneg (pySplitlines patch.data) ([], 0) (by simp) le_rfl).1
  · have := mapper_fold_len (pySplitlines patch.data) ([], 0)
    simpa [plusLineCount, parse_changed_lines_from_patch] using this

/-- Witness for claim C5 at the patch `"+x"` and the member 0. -/
theorem changed_lines_bounds_witness :
    (0 : ℤ) ≤ 0 ∧ (parse_changed_lines_from_patch "+x").length ≤ plusLineCount "+x" :=
  ⟨(changed_lines_bounds "+x").1 0 (by decide), (changed_lines_bounds "+x").2⟩

/-- One aggregation step keeps the seen list equal to the commit URLs
of the results, in order, and keeps it duplicate-free. -/
theorem aggStep_inv {α : Type} (h : α) (st : List String × List (PrCommitResult α))
    (m : MatchRec) (hinv : st.1 = st.2.map PrCommitResult.commit_url)
    (hnd : st.1.Nodup) :
    (aggStep h st m).1 = (aggStep h st m).2.map PrCommitResult.commit_url ∧
      (aggStep h st m).1.Nodup := by
  unfold aggStep
  split
  · exact ⟨hinv, hnd⟩
  · next hmem =>
    constructor
    · simp [hinv]
    · simp only [List.nodup_append, List.nodup_singleton]
      exact ⟨hnd, trivial, by simpa using hmem⟩

/-- Membership in the seen list after one aggregation step. -/
theorem aggStep_mem {α : Type} (h : α) (st : List String × List (PrCommitResult α))
    (m : MatchRec) (u : String) :
    u ∈ (aggStep h st m).1 ↔ u ∈ st.1 ∨ u = m.commit_url := by
  unfold aggStep
  split
  · next hmem => exact ⟨Or.inl, fun hu => hu.elim id (fun he => he ▸ hmem)⟩
  · simp

/-- Membership in the seen list after folding one match list. -/
theorem aggFold_inner_mem {α : Type} (h : α) (ms : List MatchRec) :
    ∀ (st : List String × List (PrCommitResult α)) (u : String),
      u ∈ (ms.foldl (aggStep h) st).1 ↔ u ∈ st.1 ∨ ∃ m ∈ ms, u = m.commit_url := by
  induction ms with
  | nil => simp
  | cons m ms ih =>
    intro st u
    rw [List.foldl_cons, ih, aggStep_mem]
    simp only [List.mem_cons]
    constructor
    · rintro ((hu | hu) | ⟨m', hm', hu⟩)
      · exact Or.inl hu
      · exact Or.inr ⟨m, Or.inl rfl, hu⟩
      · exact Or.inr ⟨m', Or.inr hm', hu⟩
    · rintro (hu | ⟨m', hm' | hm', hu⟩)
      · exact Or.inl (Or.inl hu)
      · exact Or.inl (Or.inr (hm' ▸ hu))
      · exact Or.inr ⟨m', hm', hu⟩

/-- Membership in the seen list after the whole aggregation fold. -/
theorem aggFold_outer_mem {α : Type} (h : α) (LL : List (List MatchRec)) :
    ∀ (st : List String × List (PrCommitResult α)) (u : String),
      u ∈ (LL.foldl (fun st ms => ms.foldl (aggStep h) st) st).1 ↔
        u ∈ st.1 ∨ ∃ ms ∈ LL, ∃ m ∈ ms, u = m.commit_url := by
  induction LL with
  | nil => simp
  | cons ms LL ih =>
    intro st u
    rw [List.foldl_cons, ih, aggFold_inner_mem]
    simp only [List.mem_cons]
    constructor
    · rintro ((hu | hu) | ⟨ms', hms', hm⟩)
      · exact Or.inl hu
      · exact Or.inr ⟨ms, Or.inl rfl, hu⟩
      · exact Or.inr ⟨ms', Or.inr hms', hm⟩
    · rintro (hu | ⟨ms', hms' | hms', hm⟩)
      · exact Or.inl (Or.inl hu)
      · exact Or.inl (Or.inr (hms' ▸ hm))
      · exact Or.inr ⟨ms', hms', hm⟩

/-- The invariant of `aggStep_inv` holds after the whole fold. -/
theorem aggFold_outer_inv {α : Type} (h : α) (LL : List (List MatchRec)) :
    ∀ (st : List String × List (PrCommitResult α)),
      st.1 = st.2.map PrCommitResult.commit_url → st.1.Nodup →
      (LL.foldl (fun st ms => ms.foldl (aggStep h) st) st).1 =
          (LL.foldl (fun st ms => ms.foldl (aggStep h) st) st).2.map
            PrCommitResult.commit_url ∧
        (LL.foldl (fun st ms => ms.foldl (aggStep h) st) st).1.Nodup := by
  have inner : ∀ (ms : List MatchRec) (st : List String × List (PrCommitResult α)),
      st.1 = st.2.map PrCommitResult.commit_url → st.1.Nodup →
      (ms.foldl (aggStep h) st).1 = (ms.foldl (aggStep h) st).2.map
          PrCommitResult.commit_url ∧ (ms.foldl (aggStep h) st).1.Nodup := by
    intro ms
    induction ms with
    | nil => exact fun st hinv hnd => ⟨hinv, hnd⟩
    | cons m ms ih =>
      intro st hinv hnd
      have := aggStep_inv h st m hinv hnd
      exact ih (aggStep h st m) this.1 this.2
  induction LL with
  | nil => exact fun st hinv hnd => ⟨hinv, hnd⟩
  | cons ms LL ih =>
    intro st hinv hnd
    have := inner ms st hinv hnd
    exact ih (ms.foldl (aggStep h) st) this.1 this.2

/-- A match list all of whose commit URLs are already seen is a no-op. -/
theorem aggFold_inner_noop {α : Type} (h : α) (ms : List MatchRec) :
    ∀ (st : List String × List (PrCommitResult α)),
      (∀ m ∈ ms, m.commit_url ∈ st.1) → ms.foldl (aggStep h) st = st := by
  induction ms with
  | nil => exact fun st _ => rfl
  | cons m ms ih =>
    intro st hall
    have hstep : aggStep h st m = st := by
      unfold aggStep
      rw [if_pos (hall m (List.mem_cons_self m ms))]
    rw [List.foldl_cons, hstep]
    exact ih st (fun m' hm' => hall m' (List.mem_cons_of_mem m hm'))

/-- Claim C6 (amended): each distinct commit id appears exactly once in
the aggregated output — the commit-URL column is duplicate-free, and a
URL appears exactly when some pass result carries it — and the record
kept for a commit id is that of its earliest-seen result: later results
with the same commit id are skipped entirely, their evidence not
unioned in, which is also why merging the same pass results twice
produces exactly the same output as merging them once. -/
theorem aggregate_first_seen_semantics :
    (∀ (α : Type) (h : α) (LL : List (List MatchRec)),
        ((search_pr_commits_aggregate h LL).map PrCommitResult.commit_url).Nodup) ∧
    (∀ (α : Type) (h : α) (LL : List (List MatchRec)) (u : String),
        u ∈ (search_pr_commits_aggregate h LL).map PrCommitResult.commit_url ↔
          ∃ ms ∈ LL, ∃ m ∈ ms, u = m.commit_url) ∧
    (∀ (α : Type) (h : α) (LL : List (List MatchRec)),
        search_pr_commits_aggregate h (LL ++ LL) = search_pr_commits_aggregate h LL) := by
  refine ⟨?_, ?_, ?_⟩
  · intro α h LL
    have := aggFold_outer_inv h LL ([], []) rfl List.nodup_nil
    rw [search_pr_commits_aggregate, ← this.1]
    exact this.2
  · intro α h LL u
    have hinv := aggFold_outer_inv h LL ([], []) rfl List.nodup_nil
    rw [search_pr_commits_aggregate, ← hinv.1]
    rw [aggFold_outer_mem]
    simp
  · intro α h LL
    unfold search_pr_commits_aggregate
    rw [List.foldl_append]
    have hall : ∀ S : List String × List (PrCommitResult α),
        (∀ ms ∈ LL, ∀ m ∈ ms, m.commit_url ∈ S.1) →
        LL.foldl (fun st ms => ms.foldl (aggStep h) st) S = S := by
      intro S
      induction LL with
      | nil => exact fun _ => rfl
      | cons ms LL ih =>
        intro hseen
        rw [List.foldl_cons,
          aggFold_inner_noop h ms S (hseen ms (List.mem_cons_self ms LL))]
        exact ih (fun ms' hms' m hm => hseen ms' (List.mem_cons_of_mem ms hms') m hm)
    rw [hall _ ?_]
    intro ms hms m hm
    rw [aggFold_outer_mem]
    exact Or.inr ⟨ms, hms, m, hm, rfl⟩

/-- Claim C9 (counterexample): under the unparsable header
`@@ bad @@` the mapper does not skip line-mapping: it keeps the running
counter from the previous hunk, so the following `+` line is still
recorded (here as line 6) instead of being skipped. -/
theorem mapper_maps_lines_under_unparsed_header :
    matchMapperHeader "@@ bad @@".data = none ∧
    (6 : ℤ) ∈ parse_changed_lines_from_patch "@@ -1,1 +5,1 @@\n x\n@@ bad @@\n+y" := by decide

/-- The resolver's scan returns nothing when no file passes the match
test, whatever the starting index. -/
theorem blobLoop_none (blobs : List String) (pfx : List Char) :
    ∀ (i : ℕ) (files : List String),
      (∀ f ∈ files, blobMatchTest pfx f.data = false) →
      blobLoop blobs pfx i files = none := by
  intro i files
  induction files generalizing i with
  | nil => intro _; rfl
  | cons f rest ih =>
    intro hall
    unfold blobLoop
    rw [if_neg (by simp [hall f (List.mem_cons_self f rest)])]
    exact ih (i + 1) (fun g hg => hall g (List.mem_cons_of_mem f hg))

/-- Claim C8 (amended): the resolver scans the file list once in order
and returns the reference of the first file passing the combined
(exact-or-substring, case-insensitive) match test, so an earlier
substring match wins over a later exact match; when no file passes,
it returns the sole reference when exactly one exists and not-found
otherwise.  With files `Token.sol` and `Vault.sol`, unit
`Vault::withdraw` still resolves to the `Vault.sol` reference and
`Unknown::foo` to not-found. -/
theorem blob_resolver_policy :
    (∀ (blobs : List String) (fname : String) (files : List String),
        (∀ f ∈ files, blobMatchTest (extractPfx fname.data) f.data = false) →
        get_blob_url_by_function blobs fname files =
          (if blobs.length = 1 then blobs.head? else none)) ∧
    get_blob_url_by_function ["tb", "vb"] "Vault::withdraw" ["Token.sol", "Vault.sol"] =
        some "vb" ∧
    get_blob_url_by_function ["tb", "vb"] "Unknown::foo" ["Token.sol", "Vault.sol"] =
        none := by
  refine ⟨?_, by decide, by decide⟩
  intro blobs fname files hall
  unfold get_blob_url_by_function
  rw [blobLoop_none blobs _ 0 files hall]
  simp [beq_iff_eq]

/-- Witness for claim C8 with one file that matches nothing and two
references. -/
theorem blob_resolver_policy_witness :
    get_blob_url_by_function ["x", "y"] "Q::f" ["A.sol"] =
      (if (["x", "y"] : List String).length = 1 then (["x", "y"] : List String).head?
       else none) :=
  blob_resolver_policy.1 ["x", "y"] "Q::f" ["A.sol"] (by decide)

/-- One slot write preserves the slot-list length. -/
theorem pclStep_length {κ δ : Type} (fetch : κ → Except String δ) (cs : List κ)
    (acc : List (Option (ExtractOutcome κ δ))) (i : ℕ) :
    (pclStep fetch cs acc i).length = acc.length := by
  unfold pclStep
  split
  · exact List.length_set acc i _
  · rfl

/-- Folding completions preserves the slot-list length. -/
theorem pcl_foldl_length {κ δ : Type} (fetch : κ → Except String δ) (cs : List κ) :
    ∀ (completion : List ℕ) (acc : List (Option (ExtractOutcome κ δ))),
      (completion.foldl (pclStep fetch cs) acc).length = acc.length := by
  intro completion
  induction completion with
  | nil => exact fun _ => rfl
  | cons i rest ih =>
    intro acc
    rw [List.foldl_cons, ih, pclStep_length]

/-- A slot whose index never completes is untouched. -/
theorem pcl_get_notmem {κ δ : Type} (fetch : κ → Except String δ) (cs : List κ) :
    ∀ (completion : List ℕ) (acc : List (Option (ExtractOutcome κ δ))) (j : ℕ),
      j ∉ completion →
      (completion.foldl (pclStep fetch cs) acc).get? j = acc.get? j := by
  intro completion
  induction completion with
  | nil => exact fun _ _ _ => rfl
  | cons i rest ih =>
    intro acc j hj
    rw [List.foldl_cons, ih _ j (fun h => hj (List.mem_cons_of_mem i h))]
    unfold pclStep
    split
    · exact List.get?_set_ne _ _ (fun h => hj (h ▸ List.mem_cons_self i rest))
    · rfl

/-- A slot whose index completes holds the result of its own commit. -/
theorem pcl_get_mem {κ δ : Type} (fetch : κ → Except String δ) (cs : List κ) :
    ∀ (completion : List ℕ) (acc : List (Option (ExtractOutcome κ δ))) (j : ℕ) (c : κ),
      j ∈ completion → cs.get? j = some c → acc.length = cs.length →
      (completion.foldl (pclStep fetch cs) acc).get? j =
        some (some (extract_detailed_commit_info fetch c)) := by
  intro completion
  induction completion with
  | nil => intro acc j c hj; exact absurd hj (List.not_mem_nil j)
  | cons i rest ih =>
    intro acc j c hj hc hlen
    by_cases hjr : j ∈ rest
    · exact ih _ j c hjr hc (by rw [pclStep_length]; exact hlen)
    · have hij : j = i := by
        rcases List.mem_cons.mp hj with h | h
        · exact h
        · exact absurd h hjr
      subst hij
      rw [List.foldl_cons, pcl_get_notmem fetch cs rest _ j hjr]
      unfold pclStep
      rw [hc]
      have hlt : j < acc.length := by
        rw [hlen]
        exact (List.get?_eq_some.mp hc).1
      exact List.get?_set_eq_of_lt _ hlt

/-- Claim C10: whatever order the parallel workers complete in (any
permutation of the indices), `process_commit_list` returns one slot per
input commit, the i-th slot holding the result for the i-th input, and
a commit whose processing fails occupies its own slot with an error
record carrying the original input rather than being omitted. -/
theorem process_commit_list_order :
    ∀ {κ δ : Type} (fetch : κ → Except String δ) (commits : List κ)
      (completion : List ℕ), completion.Perm (List.range commits.length) →
      process_commit_list fetch commits completion =
          commits.map (fun c => some (extract_detailed_commit_info fetch c)) ∧
      (process_commit_list fetch commits completion).length = commits.length ∧
      (∀ (i : ℕ) (c : κ) (e : String), commits.get? i = some c → fetch c = .error e →
        (process_commit_list fetch commits completion).get? i =
          some (some (.err e c))) := by
  intro κ δ fetch commits completion hperm
  have heq : process_commit_list fetch commits completion =
      commits.map (fun c => some (extract_detailed_commit_info fetch c)) := by
    apply List.ext_get?
    intro n
    rw [List.get?_map]
    cases hn : commits.get? n with
    | some c =>
      have hmem : n ∈ completion := by
        rw [hperm.mem_iff, List.mem_range]
        exact (List.get?_eq_some.mp hn).1
      rw [process_commit_list,
        pcl_get_mem fetch commits completion _ n c hmem hn (List.length_replicate _ _)]
      rfl
    | none =>
      have hlen : commits.length ≤ n := List.get?_eq_none.mp hn
      rw [process_commit_list]
      have : (completion.foldl (pclStep fetch commits)
          (List.replicate commits.length none)).length = commits.length := by
        rw [pcl_foldl_length]
        exact List.length_replicate _ _
      rw [List.get?_eq_none.mpr (by rw [this]; exact hlen)]
      rfl
  refine ⟨heq, by rw [heq]; simp, ?_⟩
  intro i c e hc hfe
  rw [heq, List.get?_map, hc]
  simp [extract_detailed_commit_info, hfe]

/-- Consuming the empty literal leaves the subject unchanged. -/
theorem dropPrefixChars_nil (s : List Char) : dropPrefixChars [] s = some s := rfl

/-- Consuming a literal character from a subject with the same head. -/
theorem dropPrefixChars_cons_self (c : Char) (p s : List Char) :
    dropPrefixChars (c :: p) (c :: s) = dropPrefixChars p s := by
  simp [dropPrefixChars]

/-- Consuming a literal from a subject that starts with it. -/
theorem dropPrefixChars_append (p s : List Char) : dropPrefixChars p (p ++ s) = some s := by
  induction p with
  | nil => rfl
  | cons c p ih => rw [List.cons_append, dropPrefixChars_cons_self]; exact ih

/-- `takeWhile` over a block satisfying the test followed by a
remainder whose head fails it. -/
theorem takeWhile_append_all {p : Char → Bool} (ds r : List Char)
    (hd : ∀ c ∈ ds, p c = true) (hr : ∀ c, r.head? = some c → p c = false) :
    (ds ++ r).takeWhile p = ds := by
  induction ds with
  | nil =>
    cases r with
    | nil => rfl
    | cons c t => simp [List.takeWhile_cons, hr c rfl]
  | cons d ds ih =>
    rw [List.cons_append, List.takeWhile_cons, hd d (List.mem_cons_self d ds)]
    rw [ih (fun c hc => hd c (List.mem_cons_of_mem d hc))]
    rfl

/-- `dropWhile` over a block satisfying the test followed by a
remainder whose head fails it. -/
theorem dropWhile_append_all {p : Char → Bool} (ds r : List Char)
    (hd : ∀ c ∈ ds, p c = true) (hr : ∀ c, r.head? = some c → p c = false) :
    (ds ++ r).dropWhile p = r := by
  induction ds with
  | nil =>
    cases r with
    | nil => rfl
    | cons c t => simp [List.dropWhile_cons, hr c rfl]
  | cons d ds ih =>
    rw [List.cons_append, List.dropWhile_cons, hd d (List.mem_cons_self d ds)]
    exact ih (fun c hc => hd c (List.mem_cons_of_mem d hc))

/-- The greedy digit parser on a nonempty digit block followed by a
non-digit remainder. -/
theorem parseNum_append (ds r : List Char) (hne : ds ≠ [])
    (hd : ∀ c ∈ ds, c.isDigit = true) (hr : ∀ c, r.head? = some c → c.isDigit = false) :
    parseNum (ds ++ r) = some (digitsVal ds, r) := by
  simp only [parseNum]
  rw [takeWhile_append_all ds r hd hr, dropWhile_append_all ds r hd hr]
  cases ds with
  | nil => exact absurd rfl hne
  | cons d ds => rfl

/-- A remainder starting with a comma does not start with a digit. -/
theorem head_comma_not_digit (t : List Char) :
    ∀ c, ((',' :: t) : List Char).head? = some c → c.isDigit = false := by
  intro c h
  rw [List.head?_cons] at h
  injection h with h
  subst h
  rfl

/-- A remainder starting with a space does not start with a digit. -/
theorem head_space_not_digit (t : List Char) :
    ∀ c, ((' ' :: t) : List Char).head? = some c → c.isDigit = false := by
  intro c h
  rw [List.head?_cons] at h
  injection h with h
  subst h
  rfl

/-- Character lists of the literal pattern pieces. -/
theorem data_atat_dash : "@@ -".data = ['@', '@', ' ', '-'] := rfl

/-- Character list of the literal `" +"`. -/
theorem data_space_plus : " +".data = [' ', '+'] := rfl

/-- Character list of the literal `" @@"`. -/
theorem data_space_atat : " @@".data = [' ', '@', '@'] := rfl

/-- The closing step on a header with nothing after the final `@@`. -/
theorem finishHeader_end (v1 v2 v3 v4 : Nat) :
    finishHeader v1 v2 v3 v4 [' ', '@', '@'] = some ⟨v1, v2, v3, v4, none⟩ := rfl

/-- The optional count group on a remainder starting with a comma. -/
theorem tryComma_comma (t : List Char) (cont : Nat → List Char → Option HunkHeader) :
    tryComma (',' :: t) cont =
      match parseNum t with
      | none => none
      | some (v, r3) => cont v r3 := rfl

/-- The optional count group matches nothing on a remainder starting
with a space. -/
theorem tryComma_space (t : List Char) (cont : Nat → List Char → Option HunkHeader) :
    tryComma (' ' :: t) cont = none := rfl

/-- The tail of the pattern on `" +c,d @@"`. -/
theorem afterOld_with_count (v1 v2 : Nat) (ds3 ds4 : List Char)
    (h3ne : ds3 ≠ []) (h3d : ∀ c ∈ ds3, c.isDigit = true)
    (h4ne : ds4 ≠ []) (h4d : ∀ c ∈ ds4, c.isDigit = true) :
    afterOld v1 v2 (' ' :: '+' :: (ds3 ++ (',' :: (ds4 ++ [' ', '@', '@'])))) =
      some ⟨v1, v2, digitsVal ds3, digitsVal ds4, none⟩ := by
  have e3 := parseNum_append ds3 (',' :: (ds4 ++ [' ', '@', '@'])) h3ne h3d
    (head_comma_not_digit (ds4 ++ [' ', '@', '@']))
  have e4 := parseNum_append ds4 [' ', '@', '@'] h4ne h4d (head_space_not_digit ['@', '@'])
  simp only [afterOld, data_space_plus, dropPrefixChars_cons_self, dropPrefixChars_nil,
    e3, tryComma_comma, e4, finishHeader_end]

/-- The tail of the pattern on `" +c @@"`. -/
theorem afterOld_no_count (v1 v2 : Nat) (ds3 : List Char)
    (h3ne : ds3 ≠ []) (h3d : ∀ c ∈ ds3, c.isDigit = true) :
    afterOld v1 v2 (' ' :: '+' :: (ds3 ++ [' ', '@', '@'])) =
      some ⟨v1, v2, digitsVal ds3, 1, none⟩ := by
  have e3 := parseNum_append ds3 [' ', '@', '@'] h3ne h3d (head_space_not_digit ['@', '@'])
  simp only [afterOld, data_space_plus, dropPrefixChars_cons_self, dropPrefixChars_nil,
    e3, tryComma_space, finishHeader_end]

/-- One pattern attempt on a full header `@@ -a,b +c,d @@`. -/
theorem matchAt_both_counts (ds1 ds2 ds3 ds4 : List Char)
    (h1ne : ds1 ≠ []) (h1d : ∀ c ∈ ds1, c.isDigit = true)
    (h2ne : ds2 ≠ []) (h2d : ∀ c ∈ ds2, c.isDigit = true)
    (h3ne : ds3 ≠ []) (h3d : ∀ c ∈ ds3, c.isDigit = true)
    (h4ne : ds4 ≠ []) (h4d : ∀ c ∈ ds4, c.isDigit = true) :
    matchHunkHeaderAt ('@' :: '@' :: ' ' :: '-' ::
        (ds1 ++ (',' :: (ds2 ++ (' ' :: '+' ::
          (ds3 ++ (',' :: (ds4 ++ [' ', '@', '@'])))))))) =
      some ⟨digitsVal ds1, digitsVal ds2, digitsVal ds3, digitsVal ds4, none⟩ := by
  have e1 := parseNum_append ds1
    (',' :: (ds2 ++ (' ' :: '+' :: (ds3 ++ (',' :: (ds4 ++ [' ', '@', '@']))))))
    h1ne h1d (head_comma_not_digit _)
  have e2 := parseNum_append ds2
    (' ' :: '+' :: (ds3 ++ (',' :: (ds4 ++ [' ', '@', '@'])))) h2ne h2d
    (head_space_not_digit _)
  simp only [matchHunkHeaderAt, data_atat_dash, dropPrefixChars_cons_self,
    dropPrefixChars_nil, e1, tryComma_comma, e2,
    afterOld_with_count (digitsVal ds1) (digitsVal ds2) ds3 ds4 h3ne h3d h4ne h4d]

/-- One pattern attempt on `@@ -a +c,d @@` (old count omitted). -/
theorem matchAt_no_old_count (ds1 ds3 ds4 : List Char)
    (h1ne : ds1 ≠ []) (h1d : ∀ c ∈ ds1, c.isDigit = true)
    (h3ne : ds3 ≠ []) (h3d : ∀ c ∈ ds3, c.isDigit = true)
    (h4ne : ds4 ≠ []) (h4d : ∀ c ∈ ds4, c.isDigit = true) :
    matchHunkHeaderAt ('@' :: '@' :: ' ' :: '-' ::
        (ds1 ++ (' ' :: '+' :: (ds3 ++ (',' :: (ds4 ++ [' ', '@', '@'])))))) =
      some ⟨digitsVal ds1, 1, digitsVal ds3, digitsVal ds4, none⟩ := by
  have e1 := parseNum_append ds1
    (' ' :: '+' :: (ds3 ++ (',' :: (ds4 ++ [' ', '@', '@'])))) h1ne h1d
    (head_space_not_digit _)
  simp only [matchHunkHeaderAt, data_atat_dash, dropPrefixChars_cons_self,
    dropPrefixChars_nil, e1, tryComma_space,
    afterOld_with_count (digitsVal ds1) 1 ds3 ds4 h3ne h3d h4ne h4d]

/-- One pattern attempt on `@@ -a,b +c @@` (new count omitted). -/
theorem matchAt_no_new_count (ds1 ds2 ds3 : List Char)
    (h1ne : ds1 ≠ []) (h1d : ∀ c ∈ ds1, c.isDigit = true)
    (h2ne : ds2 ≠ []) (h2d : ∀ c ∈ ds2, c.isDigit = true)
    (h3ne : ds3 ≠ []) (h3d : ∀ c ∈ ds3, c.isDigit = true) :
    matchHunkHeaderAt ('@' :: '@' :: ' ' :: '-' ::
        (ds1 ++ (',' :: (ds2 ++ (' ' :: '+' :: (ds3 ++ [' ', '@', '@'])))))) =
      some ⟨digitsVal ds1, digitsVal ds2, digitsVal ds3, 1, none⟩ := by
  have e1 := parseNum_append ds1
    (',' :: (ds2 ++ (' ' :: '+' :: (ds3 ++ [' ', '@', '@'])))) h1ne h1d
    (head_comma_not_digit _)
  have e2 := parseNum_append ds2 (' ' :: '+' :: (ds3 ++ [' ', '@', '@'])) h2ne h2d
    (head_space_not_digit _)
  simp only [matchHunkHeaderAt, data_atat_dash, dropPrefixChars_cons_self,
    dropPrefixChars_nil, e1, tryComma_comma, e2,
    afterOld_no_count (digitsVal ds1) (digitsVal ds2) ds3 h3ne h3d]

/-- One pattern attempt on `@@ -a +c @@` (both counts omitted). -/
theorem matchAt_no_counts (ds1 ds3 : List Char)
    (h1ne : ds1 ≠ []) (h1d : ∀ c ∈ ds1, c.isDigit = true)
    (h3ne : ds3 ≠ []) (h3d : ∀ c ∈ ds3, c.isDigit = true) :
    matchHunkHeaderAt ('@' :: '@' :: ' ' :: '-' ::
        (ds1 ++ (' ' :: '+' :: (ds3 ++ [' ', '@', '@'])))) =
      some ⟨digitsVal ds1, 1, digitsVal ds3, 1, none⟩ := by
  have e1 := parseNum_append ds1 (' ' :: '+' :: (ds3 ++ [' ', '@', '@'])) h1ne h1d
    (head_space_not_digit _)
  simp only [matchHunkHeaderAt, data_atat_dash, dropPrefixChars_cons_self,
    dropPrefixChars_nil, e1, tryComma_space,
    afterOld_no_count (digitsVal ds1) 1 ds3 h3ne h3d]

/-- The search wrapper returns the match found at the first position. -/
theorem searchHunkHeader_head_match (c : Char) (t : List Char) (hh : HunkHeader)
    (h : matchHunkHeaderAt (c :: t) = some hh) : searchHunkHeader (c :: t) = some hh := by
  unfold searchHunkHeader
  rw [h]

/-- Claim C3 (amended): for every valid hunk header `@@ -a,b +c,d @@`
(digit strings for the numbers, nothing after the closing `@@`), the
parser returns exactly the four written numbers, with an omitted count
group defaulting to 1 on its own side only; in particular the header
`@@ -10,0 +10,3 @@`, whose old count is the explicit digit `0`, parses
to old count 0 — not 1 — in both header parsers of the repository. -/
theorem parse_hunk_header_grammar :
    (∀ ds1 ds2 ds3 ds4 : List Char,
        ds1 ≠ [] → ds2 ≠ [] → ds3 ≠ [] → ds4 ≠ [] →
        (∀ c ∈ ds1, c.isDigit = true) → (∀ c ∈ ds2, c.isDigit = true) →
        (∀ c ∈ ds3, c.isDigit = true) → (∀ c ∈ ds4, c.isDigit = true) →
        parse_hunk_header (String.mk ('@' :: '@' :: ' ' :: '-' ::
            (ds1 ++ (',' :: (ds2 ++ (' ' :: '+' ::
              (ds3 ++ (',' :: (ds4 ++ [' ', '@', '@']))))))))) =
          some ⟨digitsVal ds1, digitsVal ds2, digitsVal ds3, digitsVal ds4, none⟩) ∧
    (∀ ds1 ds3 ds4 : List Char,
        ds1 ≠ [] → ds3 ≠ [] → ds4 ≠ [] →
        (∀ c ∈ ds1, c.isDigit = true) → (∀ c ∈ ds3, c.isDigit = true) →
        (∀ c ∈ ds4, c.isDigit = true) →
        parse_hunk_header (String.mk ('@' :: '@' :: ' ' :: '-' ::
            (ds1 ++ (' ' :: '+' :: (ds3 ++ (',' :: (ds4 ++ [' ', '@', '@']))))))) =
          some ⟨digitsVal ds1, 1, digitsVal ds3, digitsVal ds4, none⟩) ∧
    (∀ ds1 ds2 ds3 : List Char,
        ds1 ≠ [] → ds2 ≠ [] → ds3 ≠ [] →
        (∀ c ∈ ds1, c.isDigit = true) → (∀ c ∈ ds2, c.isDigit = true) →
        (∀ c ∈ ds3, c.isDigit = true) →
        parse_hunk_header (String.mk ('@' :: '@' :: ' ' :: '-' ::
            (ds1 ++ (',' :: (ds2 ++ (' ' :: '+' :: (ds3 ++ [' ', '@', '@']))))))) =
          some ⟨digitsVal ds1, digitsVal ds2, digitsVal ds3, 1, none⟩) ∧
    (∀ ds1 ds3 : List Char,
        ds1 ≠ [] → ds3 ≠ [] →
        (∀ c ∈ ds1, c.isDigit = true) → (∀ c ∈ ds3, c.isDigit = true) →
        parse_hunk_header (String.mk ('@' :: '@' :: ' ' :: '-' ::
            (ds1 ++ (' ' :: '+' :: (ds3 ++ [' ', '@', '@']))))) =
          some ⟨digitsVal ds1, 1, digitsVal ds3, 1, none⟩) ∧
    parse_hunk_header "@@ -10,0 +10,3 @@" = some ⟨10, 0, 10, 3, none⟩ ∧
    parse_hunk_header_ops "@@ -10,0 +10,3 @@" = some ⟨10, 0, 10, 3⟩ := by
  refine ⟨?_, ?_, ?_, ?_, by decide, by decide⟩
  · intro ds1 ds2 ds3 ds4 h1 h2 h3 h4 h1d h2d h3d h4d
    exact searchHunkHeader_head_match _ _ _
      (matchAt_both_counts ds1 ds2 ds3 ds4 h1 h1d h2 h2d h3 h3d h4 h4d)
  · intro ds1 ds3 ds4 h1 h3 h4 h1d h3d h4d
    exact searchHunkHeader_head_match _ _ _
      (matchAt_no_old_count ds1 ds3 ds4 h1 h1d h3 h3d h4 h4d)
  · intro ds1 ds2 ds3 h1 h2 h3 h1d h2d h3d
    exact searchHunkHeader_head_match _ _ _
      (matchAt_no_new_count ds1 ds2 ds3 h1 h1d h2 h2d h3 h3d)
  · intro ds1 ds3 h1 h3 h1d h3d
    exact searchHunkHeader_head_match _ _ _
      (matchAt_no_counts ds1 ds3 h1 h1d h3 h3d)

/-- Witness for claim C3 at the headers `@@ -1,2 +3,4 @@` and
`@@ -7 +8 @@`. -/
theorem parse_hunk_header_grammar_witness :
    parse_hunk_header (String.mk ('@' :: '@' :: ' ' :: '-' ::
        ((['1'] : List Char) ++ (',' :: ((['2'] : List Char) ++ (' ' :: '+' ::
          ((['3'] : List Char) ++ (',' :: ((['4'] : List Char) ++ [' ', '@', '@']))))))))) =
      some ⟨digitsVal ['1'], digitsVal ['2'], digitsVal ['3'], digitsVal ['4'], none⟩ ∧
    parse_hunk_header (String.mk ('@' :: '@' :: ' ' :: '-' ::
        ((['7'] : List Char) ++ (' ' :: '+' :: ((['8'] : List Char) ++ [' ', '@', '@']))))) =
      some ⟨digitsVal ['7'], 1, digitsVal ['8'], 1, none⟩ :=
  ⟨parse_hunk_header_grammar.1 ['1'] ['2'] ['3'] ['4'] (by decide) (by decide) (by decide)
      (by decide) (by decide) (by decide) (by decide) (by decide),
   parse_hunk_header_grammar.2.2.2.1 ['7'] ['8'] (by decide) (by decide) (by decide)
      (by decide)⟩

/-- A successful literal consumption decomposes the subject. -/
theorem dropPrefixChars_eq_some (p : List Char) :
    ∀ s r, dropPrefixChars p s = some r → s = p ++ r := by
  induction p with
  | nil =>
    intro s r h
    rw [List.nil_append]
    exact Option.some.inj h
  | cons c p ih =>
    intro s r h
    cases s with
    | nil => exact absurd h (by simp [dropPrefixChars])
    | cons x t =>
      unfold dropPrefixChars at h
      split at h
      · next hxc =>
        rw [List.cons_append, hxc]
        exact congrArg (c :: ·) (ih t r h)
      · exact absurd h (by simp)

/-- A successful digit parse decomposes the subject into a digit block
and the remainder, and the value is the block's decimal value. -/
theorem parseNum_eq_some (s : List Char) (v : Nat) (r : List Char)
    (h : parseNum s = some (v, r)) :
    ∃ ds, DigitSeg ds ∧ s = ds ++ r ∧ v = digitsVal ds := by
  simp only [parseNum] at h
  split at h
  · exact absurd h (by simp)
  · next hne =>
    injection h with h
    injection h with hv hr
    refine ⟨s.takeWhile Char.isDigit, ⟨?_, fun c hc => List.mem_takeWhile_imp hc⟩, ?_, hv.symm⟩
    · intro hnil
      rw [hnil] at hne
      exact hne rfl
    · rw [← hr]
      exact (List.takeWhile_append_dropWhile Char.isDigit s).symm

/-- A successful `(.*)$` capture certifies the tail condition. -/
theorem lineCapture_TailOk (rest cap : List Char) (h : lineCapture rest = some cap) :
    TailOk rest := by
  unfold lineCapture at h
  split at h
  · split at h
    · exact absurd h (by simp)
    · split at h
      · next h1 h2 h3 =>
        exact Or.inr ⟨Bool.not_eq_true _ ▸ h2, h3⟩
      · exact absurd h (by simp)
  · next h1 =>
    exact Or.inl (Bool.not_eq_true _ ▸ h1)

/-- A successful closing step decomposes the remainder. -/
theorem finishHeader_eq_some (v1 v2 v3 v4 : Nat) (r : List Char) (hh : HunkHeader)
    (h : finishHeader v1 v2 v3 v4 r = some hh) :
    ∃ rest, r = " @@".data ++ rest ∧ TailOk rest := by
  unfold finishHeader at h
  cases hdp : dropPrefixChars " @@".data r with
  | none => simp only [hdp] at h; cases h
  | some rest =>
    simp only [hdp] at h
    refine ⟨rest, dropPrefixChars_eq_some _ _ _ hdp, ?_⟩
    cases hlc : lineCapture rest with
    | none => simp only [hlc] at h; cases h
    | some cap => exact lineCapture_TailOk rest cap hlc

/-- A successful optional count group decomposes the remainder. -/
theorem tryComma_eq_some (r : List Char) (cont : Nat → List Char → Option HunkHeader)
    (hh : HunkHeader) (h : tryComma r cont = some hh) :
    ∃ ds r3, DigitSeg ds ∧ r = ',' :: (ds ++ r3) ∧ cont (digitsVal ds) r3 = some hh := by
  unfold tryComma at h
  split at h
  · next r2 =>
    cases hp : parseNum r2 with
    | none => simp only [hp] at h; cases h
    | some p =>
      obtain ⟨v, r3⟩ := p
      simp only [hp] at h
      obtain ⟨ds, hseg, heq, hv⟩ := parseNum_eq_some r2 v r3 hp
      exact ⟨ds, r3, hseg, by rw [heq], by rw [← hv]; exact h⟩
  · cases h

/-- A successful tail match decomposes the remainder into the new-side
numbers and the closing text. -/
theorem afterOld_eq_some (v1 v2 : Nat) (r : List Char) (hh : HunkHeader)
    (h : afterOld v1 v2 r = some hh) :
    ∃ ds3 nc rest, DigitSeg ds3 ∧ (∀ ds, nc = some ds → DigitSeg ds) ∧ TailOk rest ∧
      r = " +".data ++ (ds3 ++ (optCountText nc ++ (" @@".data ++ rest))) := by
  unfold afterOld at h
  cases hdp : dropPrefixChars " +".data r with
  | none => simp only [hdp] at h; cases h
  | some r4 =>
    simp only [hdp] at h
    cases hp : parseNum r4 with
    | none => simp only [hp] at h; cases h
    | some p =>
      obtain ⟨v3, r5⟩ := p
      simp only [hp] at h
      obtain ⟨ds3, hseg3, hr4, hv3⟩ := parseNum_eq_some r4 v3 r5 hp
      cases htc : tryComma r5 (fun v4 r6 => finishHeader v1 v2 v3 v4 r6) with
      | some hh2 =>
        simp only [htc] at h
        injection h with h
        subst h
        obtain ⟨ds4, r6, hseg4, hr5, hcont⟩ := tryComma_eq_some r5 _ hh2 htc
        obtain ⟨rest, hr6, htail⟩ := finishHeader_eq_some v1 v2 v3 (digitsVal ds4) r6 hh2 hcont
        refine ⟨ds3, some ds4, rest, hseg3, ?_, htail, ?_⟩
        · intro ds hds
          injection hds with hds
          exact hds ▸ hseg4
        · rw [dropPrefixChars_eq_some _ _ _ hdp, hr4, hr5, hr6]
          simp [optCountText]
      | none =>
        simp only [htc] at h
        obtain ⟨rest, hr5, htail⟩ := finishHeader_eq_some v1 v2 v3 1 r5 hh h
        refine ⟨ds3, none, rest, hseg3, fun ds hds => Option.noConfusion hds, htail, ?_⟩
        rw [dropPrefixChars_eq_some _ _ _ hdp, hr4, hr5]
        simp [optCountText]

/-- A successful pattern attempt certifies the header shape at this
position. -/
theorem matchHunkHeaderAt_eq_some (l : List Char) (hh : HunkHeader)
    (h : matchHunkHeaderAt l = some hh) : HeaderShapeAt l := by
  unfold matchHunkHeaderAt at h
  cases hdp : dropPrefixChars "@@ -".data l with
  | none => simp only [hdp] at h; cases h
  | some r0 =>
    simp only [hdp] at h
    cases hp : parseNum r0 with
    | none => simp only [hp] at h; cases h
    | some p =>
      obtain ⟨v1, r1⟩ := p
      simp only [hp] at h
      obtain ⟨ds1, hseg1, hr0, hv1⟩ := parseNum_eq_some r0 v1 r1 hp
      cases htc : tryComma r1 (fun v2 r => afterOld v1 v2 r) with
      | some hh2 =>
        simp only [htc] at h
        injection h with h
        subst h
        obtain ⟨ds2, r3, hseg2, hr1, hcont⟩ := tryComma_eq_some r1 _ hh2 htc
        obtain ⟨ds3, nc, rest, hseg3, hnc, htail, hr3⟩ :=
          afterOld_eq_some v1 (digitsVal ds2) r3 hh2 hcont
        refine ⟨ds1, ds3, some ds2, nc, rest, hseg1, hseg3, ?_, hnc, htail, ?_⟩
        · intro ds hds
          injection hds with hds
          exact hds ▸ hseg2
        · rw [dropPrefixChars_eq_some _ _ _ hdp, hr0, hr1, hr3]
          simp [optCountText]
      | none =>
        simp only [htc] at h
        obtain ⟨ds3, nc, rest, hseg3, hnc, htail, hr1⟩ :=
          afterOld_eq_some v1 1 r1 hh h
        refine ⟨ds1, ds3, none, nc, rest, hseg1, hseg3,
          fun ds hds => Option.noConfusion hds, hnc, htail, ?_⟩
        rw [dropPrefixChars_eq_some _ _ _ hdp, hr0, hr1]
        simp [optCountText]

/-- A successful search certifies conformance at some position. -/
theorem searchHunkHeader_eq_some :
    ∀ (l : List Char) (hh : HunkHeader), searchHunkHeader l = some hh →
      ∃ pre suf, l = pre ++ suf ∧ HeaderShapeAt suf := by
  intro l
  induction l with
  | nil =>
    intro hh h
    exact ⟨[], [], rfl, matchHunkHeaderAt_eq_some [] hh h⟩
  | cons c t ih =>
    intro hh h
    unfold searchHunkHeader at h
    cases hm : matchHunkHeaderAt (c :: t) with
    | some hh2 =>
      simp only [hm] at h
      injection h with h
      subst h
      exact ⟨[], c :: t, rfl, matchHunkHeaderAt_eq_some _ hh2 hm⟩
    | none =>
      simp only [hm] at h
      obtain ⟨pre, suf, heq, hshape⟩ := ih hh h
      exact ⟨c :: pre, suf, by rw [List.cons_append, heq], hshape⟩

/-- Claim C9 (amended): a line that does not conform to the hunk-header
grammar gets a no-match result from the header parser, never an
exception (contrapositive: a successful parse certifies conformance);
the line mapper leaves its state unchanged at an unparsable `@@` line
(no counter reset — subsequent lines continue to be mapped with the
running counter, rather than being skipped); and the mapper's fold
decomposes over any split of the lines, so one malformed hunk never
aborts the processing of the remaining lines. -/
theorem malformed_header_graceful :
    (∀ (s : String) (hh : HunkHeader),
        parse_hunk_header s = some hh → ConformsHunkHeader s) ∧
    (∀ (st : List ℤ × ℤ) (line : List Char),
        startsWithStr line "@@" = true → matchMapperHeader line = none →
        mapperStep st line = st) ∧
    (∀ (ls1 ls2 : List (List Char)) (st : List ℤ × ℤ),
        (ls1 ++ ls2).foldl mapperStep st = ls2.foldl mapperStep (ls1.foldl mapperStep st)) := by
  refine ⟨?_, ?_, ?_⟩
  · intro s hh h
    exact searchHunkHeader_eq_some s.data hh h
  · intro st line h1 h2
    unfold mapperStep
    rw [if_pos h1, h2]
  · intro ls1 ls2 st
    exact List.foldl_append mapperStep st ls1 ls2

/-- Witness for claim C9: a conforming header, the unparsable header
`@@ bad @@` leaving the state untouched, and the fold split at a
concrete patch. -/
theorem malformed_header_graceful_witness :
    ConformsHunkHeader "@@ -1 +2 @@" ∧
    mapperStep ([], 0) "@@ bad @@".data = ([], 0) ∧
    ([["+a".data] , ["+b".data]].flatten.foldl mapperStep ([], 0) =
      ["+b".data].foldl mapperStep (["+a".data].foldl mapperStep ([], 0))) :=
  ⟨malformed_header_graceful.1 "@@ -1 +2 @@" ⟨1, 1, 2, 1, none⟩ (by decide),
   malformed_header_graceful.2.1 ([], 0) "@@ bad @@".data (by decide) (by decide),
   malformed_header_graceful.2.2 ["+a".data] ["+b".data] ([], 0)⟩

/-- Witness for claim C10 at a two-commit list completing in reverse
order, the second commit failing. -/
theorem process_commit_list_order_witness :
    process_commit_list (fun s : String => if s = "bad" then .error "boom" else .ok (7 : ℕ))
        ["good", "bad"] [1, 0] =
      ["good", "bad"].map (fun c => some (extract_detailed_commit_info
        (fun s : String => if s = "bad" then .error "boom" else .ok (7 : ℕ)) c)) :=
  (process_commit_list_order
    (fun s : String => if s = "bad" then .error "boom" else .ok (7 : ℕ))
    ["good", "bad"] [1, 0] (List.Perm.swap 0 1 [])).1

end DatasetValidation
